import Mathlib

/-!
# go-btree: the correctness driver (test.go) and the benchmark driver (bench.go)

Both drivers use the ordered container only through `NewTree`, `Insert`,
`Remove`, `Contains`, `Len` and `fsck`.  The container is a parameter of every
definition below (`TreeOps`); what a driver assumes about it is stated as a
contract over the trees the driver can reach.
-/

namespace GoBTree

/-! ## The tree interface -/

/-- The comparator both drivers pass to `NewTree`:
`func(a,b int) bool { return a < b }`. -/
def intLess (a b : Int) : Bool := decide (a < b)

/-- The operations the drivers call on a tree.  The Go methods update the tree
in place; here `Insert` and `Remove` return the updated tree, and `Contains`,
`Len` and `fsck` only observe it. -/
structure TreeOps (T : Type) where
  NewTree : (Int → Int → Bool) → T
  Insert : T → Int → T
  Remove : T → Int → T
  Contains : T → Int → Bool
  Len : T → Int
  fsck : T → Bool

/-- The trees a driver can reach: a new tree ordered by `intLess`, changed by
any sequence of `Insert` and `Remove` calls. -/
inductive Reachable {T : Type} (tr : TreeOps T) : T → Prop
  | new : Reachable tr (tr.NewTree intLess)
  | insert {t : T} (v : Int) : Reachable tr t → Reachable tr (tr.Insert t v)
  | remove {t : T} (v : Int) : Reachable tr t → Reachable tr (tr.Remove t v)

/-- The set of values a tree holds, `mem t w` reading "w is in t": a new tree
holds nothing, `Insert` adds its value, `Remove` takes its value out. -/
structure SetModel {T : Type} (tr : TreeOps T) (mem : T → Int → Prop) : Prop where
  mem_new : ∀ w, ¬ mem (tr.NewTree intLess) w
  mem_insert : ∀ t, Reachable tr t → ∀ v w, mem (tr.Insert t v) w ↔ (w = v ∨ mem t w)
  mem_remove : ∀ t, Reachable tr t → ∀ v w, mem (tr.Remove t v) w ↔ (w ≠ v ∧ mem t w)

/-- The set contract on `Len`: a new tree has `Len` 0, `Insert` adds 1 exactly
when the value was absent, `Remove` subtracts 1 exactly when it was present,
and `Len` is unchanged otherwise. -/
structure LenContract {T : Type} (tr : TreeOps T) (mem : T → Int → Prop) : Prop where
  len_new : tr.Len (tr.NewTree intLess) = 0
  len_insert_absent : ∀ t, Reachable tr t → ∀ v, ¬ mem t v →
    tr.Len (tr.Insert t v) = tr.Len t + 1
  len_insert_present : ∀ t, Reachable tr t → ∀ v, mem t v →
    tr.Len (tr.Insert t v) = tr.Len t
  len_remove_present : ∀ t, Reachable tr t → ∀ v, mem t v →
    tr.Len (tr.Remove t v) = tr.Len t - 1
  len_remove_absent : ∀ t, Reachable tr t → ∀ v, ¬ mem t v →
    tr.Len (tr.Remove t v) = tr.Len t

/-- The structural check passes on every tree reached. -/
def FsckPasses {T : Type} (tr : TreeOps T) : Prop :=
  ∀ t, Reachable tr t → tr.fsck t = true

/-! ## test.go -/

/-- First loop of `CheckInsertsAndDeletes` (test.go 12-22).  `none` is the
early `return false`; otherwise the tree and `count` after the loop.  `count`
moves by 1 per element and stays between 0 and `len(d)`, inside the range of
Go's `int`. -/
def ciadInsertLoop {T : Type} (tr : TreeOps T) : List Int → T → Int → Option (T × Int)
  | [], t, count => some (t, count)
  | v :: rest, t, count =>
    let t1 := tr.Insert t v
    let count1 := count + 1
    if tr.Len t1 != count1 then none
    else if !tr.fsck t1 then none
    else
      let t2 := tr.Insert t1 v
      if tr.Len t2 != count1 then none
      else if !tr.fsck t2 then none
      else ciadInsertLoop tr rest t2 count1

/-- Second loop of `CheckInsertsAndDeletes` (test.go 24-34). -/
def ciadRemoveLoop {T : Type} (tr : TreeOps T) : List Int → T → Int → Option (T × Int)
  | [], t, count => some (t, count)
  | v :: rest, t, count =>
    let t1 := tr.Remove t v
    let count1 := count - 1
    if tr.Len t1 != count1 then none
    else if !tr.fsck t1 then none
    else
      let t2 := tr.Remove t1 v
      if tr.Len t2 != count1 then none
      else if !tr.fsck t2 then none
      else ciadRemoveLoop tr rest t2 count1

/-- The two loops of `CheckInsertsAndDeletes` in sequence, from a new tree and
`count := 0`: the final tree and count, or `none` when a check failed. -/
def ciadRun {T : Type} (tr : TreeOps T) (d : List Int) : Option (T × Int) :=
  match ciadInsertLoop tr d (tr.NewTree intLess) 0 with
  | none => none
  | some (t, count) => ciadRemoveLoop tr d t count

/-- `CheckInsertsAndDeletes` (test.go 9-37): true when no check failed. -/
def CheckInsertsAndDeletes {T : Type} (tr : TreeOps T) (d : List Int) : Bool :=
  match ciadRun tr d with
  | none => false
  | some _ => true

/-- The number of groups, `divs := 4` (test.go 41). -/
def divs : Nat := 4

/-- Lower bound of group `i`: `(len(full)*i) / divs` (test.go 44).  Length and
index are not negative, so product and quotient are those of natural numbers;
`groupBoundGo` below is the same bound on Go's wrapping `int`, and they agree
as long as `divs * len(full)` is in the range of `int`. -/
def groupLow (n i : Nat) : Nat := (n * i) / divs

/-- Upper bound of group `i`: `(len(full)*(i+1)) / divs` (test.go 44). -/
def groupHigh (n i : Nat) : Nat := (n * (i + 1)) / divs

/-- The loop `for _,v := range g { t.Insert(v) }` (test.go 48-50, bench.go 22-24). -/
def insertAll {T : Type} (tr : TreeOps T) (g : List Int) (t : T) : T :=
  g.foldl tr.Insert t

/-- The loop `for _,v := range g { t.Remove(v) }` (test.go 59-61). -/
def removeAll {T : Type} (tr : TreeOps T) (g : List Int) (t : T) : T :=
  g.foldl tr.Remove t

/-- The loop `for i := range v { v[i] = i }` (test.go 77, 79) over a slice `v`. -/
def fillWithIndex (v : List Int) : List Int :=
  (List.range v.length).foldl (fun a i => a.set i (i : Int)) v

/-- The size `n := 10000` used by `main` (test.go 74). -/
def testSize : Nat := 10000

/-- The slice `vinc` of `main` (test.go 76-77): `make([]int, n)` filled by the loop. -/
def vinc : List Int := fillWithIndex (List.replicate testSize 0)

/-- The slice `vdec` of `main` (test.go 78-79): `make([]int, n)` filled by the loop. -/
def vdec : List Int := fillWithIndex (List.replicate testSize 0)

/-! ## A reference container -/

/-- Modelled from the spec: the ordered container (`NewTree`, `Insert`,
`Remove`, `Contains`, `Len`, `fsck`) is not among the source files.  This
reference container owns the comparator, the elements and a count maintained
incrementally (§3); the elements are kept as the in-order sequence of the
tree, a list strictly ascending by the comparator. -/
structure RefTree where
  less : Int → Int → Bool
  elems : List Int
  count : Int

/-- Modelled from the spec: the descent of `Contains` (§4.4) along the in-order
sequence: stop with false where the value would have to go left, go on where
it has to go right, true on a tie. -/
def refContains (less : Int → Int → Bool) (v : Int) : List Int → Bool
  | [] => false
  | x :: xs => if less v x then false else if less x v then refContains less v xs else true

/-- Modelled from the spec: the descent of `Insert` (§4.2): a new element is
attached at the slot the comparator leads to, a tie changes nothing. -/
def refInsert (less : Int → Int → Bool) (v : Int) : List Int → List Int
  | [] => [v]
  | x :: xs =>
    if less v x then v :: x :: xs
    else if less x v then x :: refInsert less v xs
    else x :: xs

/-- Modelled from the spec: the descent of `Remove` (§4.3): the element tied
with the value is spliced out, an absent value changes nothing. -/
def refRemove (less : Int → Int → Bool) (v : Int) : List Int → List Int
  | [] => []
  | x :: xs =>
    if less v x then x :: xs
    else if less x v then x :: refRemove less v xs
    else xs

/-- Modelled from the spec: the order and uniqueness invariants (§3, 1-2) of an
in-order sequence: each element is less than its successor. -/
def refOrdered (less : Int → Int → Bool) : List Int → Bool
  | [] => true
  | [_] => true
  | x :: y :: rest => less x y && refOrdered less (y :: rest)

/-- Modelled from the spec: the reference container behind the interface the
drivers use.  `Insert` adds 1 to the count when it attaches an element,
`Remove` subtracts 1 when it splices one out, and `fsck` checks the order,
uniqueness and size invariants (§4.7). -/
def refTree : TreeOps RefTree where
  NewTree := fun less => { less := less, elems := [], count := 0 }
  Insert := fun t v =>
    if refContains t.less v t.elems then t
    else { less := t.less, elems := refInsert t.less v t.elems, count := t.count + 1 }
  Remove := fun t v =>
    if refContains t.less v t.elems
    then { less := t.less, elems := refRemove t.less v t.elems, count := t.count - 1 }
    else t
  Contains := fun t v => refContains t.less v t.elems
  Len := fun t => t.count
  fsck := fun t => refOrdered t.less t.elems && decide (t.count = (t.elems.length : Int))

/-! ## The states `CheckInsertsAndDeletes` goes through -/

/-- The two `Insert` calls of one iteration of the first loop (test.go 13, 19). -/
def insertTwice {T : Type} (tr : TreeOps T) (t : T) (v : Int) : T :=
  tr.Insert (tr.Insert t v) v

/-- The two `Remove` calls of one iteration of the second loop (test.go 25, 31). -/
def removeTwice {T : Type} (tr : TreeOps T) (t : T) (v : Int) : T :=
  tr.Remove (tr.Remove t v) v

/-- The tree after the first loop of `CheckInsertsAndDeletes` has run over `l`. -/
def treeAfterInserts {T : Type} (tr : TreeOps T) (l : List Int) : T :=
  l.foldl (insertTwice tr) (tr.NewTree intLess)

/-- The tree after the first loop has run over `d` and the second over `l`. -/
def treeAfterRemoves {T : Type} (tr : TreeOps T) (d l : List Int) : T :=
  l.foldl (removeTwice tr) (treeAfterInserts tr d)

/-- What holds of every reference container a driver reaches. -/
def RefInv (t : RefTree) : Prop :=
  t.less = intLess ∧ t.elems.Sorted (· < ·) ∧ t.count = (t.elems.length : Int)

/-- The values the reference container holds. -/
def refMem (t : RefTree) (w : Int) : Prop := w ∈ t.elems


/-! ## Go's `int` in the group bounds -/

/-- A Go `int` of `w` bits holding the mathematical value `x`: the value
wrapped into the range from `-2^(w-1)` up to, not including, `2^(w-1)`. -/
def goIntWrap (w : Nat) (x : Int) : Int :=
  (x + 2 ^ (w - 1)) % 2 ^ w - 2 ^ (w - 1)

/-- The bound `(len(full)*i) / divs` as Go computes it on `int`s of `w` bits:
the product wraps around, the quotient truncates towards zero. -/
def groupBoundGo (w n i : Nat) : Int :=
  Int.tdiv (goIntWrap w ((n : Int) * (i : Int))) (divs : Int)

/-- The arithmetic bench.go does on Go's `float`, left uninterpreted: the
conversion `float(x)` of an integer, `+=`, `/`, and the constant
`1000000000.0`. -/
structure FloatOps (F : Type) where
  ofInt : Int → F
  add : F → F → F
  div : F → F → F
  billion : F

/-- A method call on the tree, with its argument. -/
inductive Call where
  | insert (v : Int)
  | remove (v : Int)
  | contains (v : Int)
  deriving DecidableEq

/-- The argument of a call. -/
def Call.arg : Call → Int
  | Call.insert v => v
  | Call.remove v => v
  | Call.contains v => v

/-- The effect of a call on the tree; the result of `Contains` is dropped
(bench.go 47) and the tree stays as it is. -/
def applyCall {T : Type} (tr : TreeOps T) (t : T) : Call → T
  | Call.insert v => tr.Insert t v
  | Call.remove v => tr.Remove t v
  | Call.contains _ => t

/-- The tree after a sequence of calls. -/
def runCalls {T : Type} (tr : TreeOps T) (cs : List Call) (t : T) : T :=
  cs.foldl (applyCall tr) t

/-- The calls each of the five timed loops of `Bench(d)` makes, in order:
`for _,v := range d { t.Insert(v) }` twice (bench.go 22-24, 28-30),
`for i := 0; i < len(d)/2; i++ { t.Remove(d[i]) }` twice (34-36, 40-42), and
`for v := range d { t.Contains(v) }` (46-48), where a `range` with one
variable yields the indices of `d`. -/
def benchCalls (d : List Int) : Fin 5 → List Call
  | 0 => d.map Call.insert
  | 1 => d.map Call.insert
  | 2 => (List.range (d.length / 2)).map (fun i => Call.remove (d.getD i 0))
  | 3 => (List.range (d.length / 2)).map (fun i => Call.remove (d.getD i 0))
  | 4 => (List.range d.length).map (fun i : Nat => Call.contains (i : Int))

/-- The tree of `Bench(d)` after each phase, from the tree `t` it starts with. -/
def benchTrees {T : Type} (tr : TreeOps T) (d : List Int) (t : T) : Fin 5 → T
  | 0 => runCalls tr (benchCalls d 0) t
  | 1 => runCalls tr (benchCalls d 1) (runCalls tr (benchCalls d 0) t)
  | 2 => runCalls tr (benchCalls d 2)
      (runCalls tr (benchCalls d 1) (runCalls tr (benchCalls d 0) t))
  | 3 => runCalls tr (benchCalls d 3) (runCalls tr (benchCalls d 2)
      (runCalls tr (benchCalls d 1) (runCalls tr (benchCalls d 0) t)))
  | 4 => runCalls tr (benchCalls d 4) (runCalls tr (benchCalls d 3) (runCalls tr (benchCalls d 2)
      (runCalls tr (benchCalls d 1) (runCalls tr (benchCalls d 0) t))))

/-- One run of `Bench`: its argument, the tree `NewTree` gave it, the calls of
each phase, the tree after each phase, and the slice `times` it returns. -/
structure BenchRun (T F : Type) where
  input : List Int
  start : T
  calls : Fin 5 → List Call
  after : Fin 5 → T
  times : Fin 5 → F

/-- `Bench` (bench.go 16-52).  `clock k` is the value of the `k`-th call of
`time.Nanoseconds()` in the program and `reads` the number of calls made
before this run; phase `k` reads the clock before and after its loop and
stores `float(end - start) / 1000000000.0` in `times[k]`.  Returned with the
run is the number of clock reads made so far. -/
def Bench {T F : Type} (tr : TreeOps T) (fl : FloatOps F) (clock : Nat → Int) (reads : Nat)
    (d : List Int) : BenchRun T F × Nat :=
  ({ input := d
     start := tr.NewTree intLess
     calls := benchCalls d
     after := benchTrees tr d (tr.NewTree intLess)
     times := fun k =>
       fl.div (fl.ofInt (clock (reads + 2 * k.val + 1) - clock (reads + 2 * k.val))) fl.billion },
   reads + 10)

/-- The slice `names` of `main` (bench.go 55-61). -/
def names : Fin 5 → String
  | 0 => "Unique Inserts"
  | 1 => "Repeated Inserts"
  | 2 => "Unique Deletes"
  | 3 => "Repeated Deletes"
  | 4 => "Queries"

/-- The state of the loop of `main` (bench.go 65-70): the clock reads made, the
slice `total`, and the runs of `Bench` so far, oldest first. -/
structure LoopState (T F : Type) where
  reads : Nat
  total : Fin 5 → F
  runs : List (BenchRun T F)

/-- One iteration of the loop of `main`: `times := Bench(d)` and
`total[j] += times[j]` for every `j` (bench.go 66-69). -/
def loopStep {T F : Type} (tr : TreeOps T) (fl : FloatOps F) (clock : Nat → Int)
    (d : List Int) (s : LoopState T F) : LoopState T F :=
  let r := Bench tr fl clock s.reads d
  { reads := r.2
    total := fun j => fl.add (s.total j) (r.1.times j)
    runs := s.runs ++ [r.1] }

/-- The loop `for i := 1; i < R; i++` of `main` run for `n` iterations. -/
def mainLoop {T F : Type} (tr : TreeOps T) (fl : FloatOps F) (clock : Nat → Int)
    (d : List Int) : Nat → LoopState T F → LoopState T F
  | 0, s => s
  | n + 1, s => mainLoop tr fl clock d n (loopStep tr fl clock d s)

/-- What `main` of bench.go does: the runs of `Bench` in order, the two numbers
of the header line, and the five lines after it, each the time, the operation
count and the name printed. -/
structure MainOutput (T F : Type) where
  runs : List (BenchRun T F)
  header : Int × Int
  lines : List (F × Int × String)

/-- `main` of bench.go (54-81) for the flag values `N` and `R`, with `d` the
slice `rand.Perm(N)` returned (for a negative `N` the call panics and nothing
of what follows happens).  The first run of `Bench` seeds `total`, the
loop `for i := 1; i < R; i++` makes `R - 1` iterations when `R > 1` and none
otherwise, every `total[i]` is divided by `float(R)`, and the counts printed
are `N`, `N`, `N/2`, `N/2`, `N` with Go's truncating division. -/
def main {T F : Type} (tr : TreeOps T) (fl : FloatOps F) (clock : Nat → Int)
    (N R : Int) (d : List Int) : MainOutput T F :=
  let first := Bench tr fl clock 0 d
  let s := mainLoop tr fl clock d (R - 1).toNat
    { reads := first.2, total := first.1.times, runs := [first.1] }
  let total : Fin 5 → F := fun i => fl.div (s.total i) (fl.ofInt R)
  { runs := s.runs
    header := (N, R)
    lines := [(total 0, N, names 0), (total 1, N, names 1), (total 2, Int.tdiv N 2, names 2),
      (total 3, Int.tdiv N 2, names 3), (total 4, N, names 4)] }

/-- Exact rational arithmetic standing in for `float` where a concrete
instance of `FloatOps` is needed. -/
def ratOps : FloatOps Rat where
  ofInt := fun x => (x : Rat)
  add := fun a b => a + b
  div := fun a b => a / b
  billion := 1000000000

/-- A clock that advances 7 nanoseconds between two reads. -/
def sampleClock (k : Nat) : Int := 7 * (k : Int)

/-! # Theorems -/

/-! ## Lemmas on `CheckInsertsAndDeletes` -/

section Ciad

variable {T : Type} {tr : TreeOps T} {mem : T → Int → Prop}

theorem mem_insertTwice (hs : SetModel tr mem) {t : T} (ht : Reachable tr t) (v w : Int) :
    mem (insertTwice tr t v) w ↔ (w = v ∨ mem t w) := by
  unfold insertTwice
  rw [hs.mem_insert _ (Reachable.insert v ht), hs.mem_insert _ ht]
  tauto

theorem mem_removeTwice (hs : SetModel tr mem) {t : T} (ht : Reachable tr t) (v w : Int) :
    mem (removeTwice tr t v) w ↔ (w ≠ v ∧ mem t w) := by
  unfold removeTwice
  rw [hs.mem_remove _ (Reachable.remove v ht), hs.mem_remove _ ht]
  tauto

theorem reachable_insertTwice {t : T} (ht : Reachable tr t) (v : Int) :
    Reachable tr (insertTwice tr t v) :=
  Reachable.insert v (Reachable.insert v ht)

theorem reachable_removeTwice {t : T} (ht : Reachable tr t) (v : Int) :
    Reachable tr (removeTwice tr t v) :=
  Reachable.remove v (Reachable.remove v ht)

theorem len_insert_twice_absent (hs : SetModel tr mem) (hl : LenContract tr mem) {t : T}
    (ht : Reachable tr t) {v : Int} (hv : ¬ mem t v) :
    tr.Len (tr.Insert t v) = tr.Len t + 1 ∧ tr.Len (insertTwice tr t v) = tr.Len t + 1 := by
  have h1 := hl.len_insert_absent t ht v hv
  refine ⟨h1, ?_⟩
  unfold insertTwice
  rw [hl.len_insert_present _ (Reachable.insert v ht) v
    ((hs.mem_insert t ht v v).2 (Or.inl rfl)), h1]

theorem len_remove_twice_present (hs : SetModel tr mem) (hl : LenContract tr mem) {t : T}
    (ht : Reachable tr t) {v : Int} (hv : mem t v) :
    tr.Len (tr.Remove t v) = tr.Len t - 1 ∧ tr.Len (removeTwice tr t v) = tr.Len t - 1 := by
  have h1 := hl.len_remove_present t ht v hv
  refine ⟨h1, ?_⟩
  unfold removeTwice
  rw [hl.len_remove_absent _ (Reachable.remove v ht) v
    (fun h => ((hs.mem_remove t ht v v).1 h).1 rfl), h1]

/-- Inserting distinct absent values twice each: the tree stays reachable, `Len`
grows by the number of values, and the values join the contents. -/
theorem foldl_insertTwice_spec (hs : SetModel tr mem) (hl : LenContract tr mem) :
    ∀ (l : List Int) (t : T), Reachable tr t → l.Nodup → (∀ v ∈ l, ¬ mem t v) →
      Reachable tr (l.foldl (insertTwice tr) t) ∧
      tr.Len (l.foldl (insertTwice tr) t) = tr.Len t + l.length ∧
      ∀ w, mem (l.foldl (insertTwice tr) t) w ↔ (w ∈ l ∨ mem t w) := by
  intro l
  induction l with
  | nil => intro t ht _ _; simp [ht]
  | cons v rest ih =>
    intro t ht hnd habs
    rw [List.nodup_cons] at hnd
    have hv : ¬ mem t v := habs v (List.mem_cons_self v rest)
    have hrest : ∀ x ∈ rest, ¬ mem (insertTwice tr t v) x := by
      intro x hx hmem
      rcases (mem_insertTwice hs ht v x).1 hmem with h | h
      · exact hnd.1 (h ▸ hx)
      · exact habs x (List.mem_cons_of_mem v hx) h
    obtain ⟨h1, h2, h3⟩ := ih (insertTwice tr t v) (reachable_insertTwice ht v) hnd.2 hrest
    refine ⟨h1, ?_, ?_⟩
    · rw [List.foldl_cons, h2, (len_insert_twice_absent hs hl ht hv).2]
      simp only [List.length_cons]; push_cast; ring
    · intro w
      rw [List.foldl_cons, h3, mem_insertTwice hs ht, List.mem_cons]
      tauto

/-- Removing distinct present values twice each. -/
theorem foldl_removeTwice_spec (hs : SetModel tr mem) (hl : LenContract tr mem) :
    ∀ (l : List Int) (t : T), Reachable tr t → l.Nodup → (∀ v ∈ l, mem t v) →
      Reachable tr (l.foldl (removeTwice tr) t) ∧
      tr.Len (l.foldl (removeTwice tr) t) = tr.Len t - l.length ∧
      ∀ w, mem (l.foldl (removeTwice tr) t) w ↔ (w ∉ l ∧ mem t w) := by
  intro l
  induction l with
  | nil => intro t ht _ _; simp [ht]
  | cons v rest ih =>
    intro t ht hnd hpres
    rw [List.nodup_cons] at hnd
    have hv : mem t v := hpres v (List.mem_cons_self v rest)
    have hrest : ∀ x ∈ rest, mem (removeTwice tr t v) x := by
      intro x hx
      refine (mem_removeTwice hs ht v x).2 ⟨?_, hpres x (List.mem_cons_of_mem v hx)⟩
      intro h
      exact hnd.1 (h ▸ hx)
    obtain ⟨h1, h2, h3⟩ := ih (removeTwice tr t v) (reachable_removeTwice ht v) hnd.2 hrest
    refine ⟨h1, ?_, ?_⟩
    · rw [List.foldl_cons, h2, (len_remove_twice_present hs hl ht hv).2]
      simp only [List.length_cons]; push_cast; ring
    · intro w
      rw [List.foldl_cons, h3, mem_removeTwice hs ht, List.mem_cons]
      tauto

/-- On distinct absent values every check of the first loop passes. -/
theorem ciadInsertLoop_distinct (hs : SetModel tr mem) (hl : LenContract tr mem)
    (hf : FsckPasses tr) :
    ∀ (l : List Int) (t : T), Reachable tr t → l.Nodup → (∀ v ∈ l, ¬ mem t v) →
      ciadInsertLoop tr l t (tr.Len t) =
        some (l.foldl (insertTwice tr) t, tr.Len t + l.length) := by
  intro l
  induction l with
  | nil => intro t _ _ _; simp [ciadInsertLoop]
  | cons v rest ih =>
    intro t ht hnd habs
    rw [List.nodup_cons] at hnd
    have hv : ¬ mem t v := habs v (List.mem_cons_self v rest)
    have hrest : ∀ x ∈ rest, ¬ mem (insertTwice tr t v) x := by
      intro x hx hmem
      rcases (mem_insertTwice hs ht v x).1 hmem with h | h
      · exact hnd.1 (h ▸ hx)
      · exact habs x (List.mem_cons_of_mem v hx) h
    obtain ⟨hl1, hl2⟩ := len_insert_twice_absent hs hl ht hv
    have hf1 := hf _ (Reachable.insert v ht)
    have hf2 := hf _ (reachable_insertTwice ht v)
    have := ih (insertTwice tr t v) (reachable_insertTwice ht v) hnd.2 hrest
    rw [hl2] at this
    unfold insertTwice at hl2 hf2
    simp only [ciadInsertLoop, hl1, hl2, hf1, hf2, bne_self_eq_false, Bool.not_true,
      Bool.false_eq_true, if_false, List.foldl_cons, List.length_cons]
    rw [show tr.Insert (tr.Insert t v) v = insertTwice tr t v from rfl, this]
    congr 2
    push_cast; ring

/-- On distinct present values every check of the second loop passes. -/
theorem ciadRemoveLoop_distinct (hs : SetModel tr mem) (hl : LenContract tr mem)
    (hf : FsckPasses tr) :
    ∀ (l : List Int) (t : T), Reachable tr t → l.Nodup → (∀ v ∈ l, mem t v) →
      ciadRemoveLoop tr l t (tr.Len t) =
        some (l.foldl (removeTwice tr) t, tr.Len t - l.length) := by
  intro l
  induction l with
  | nil => intro t _ _ _; simp [ciadRemoveLoop]
  | cons v rest ih =>
    intro t ht hnd hpres
    rw [List.nodup_cons] at hnd
    have hv : mem t v := hpres v (List.mem_cons_self v rest)
    have hrest : ∀ x ∈ rest, mem (removeTwice tr t v) x := by
      intro x hx
      refine (mem_removeTwice hs ht v x).2 ⟨?_, hpres x (List.mem_cons_of_mem v hx)⟩
      intro h
      exact hnd.1 (h ▸ hx)
    obtain ⟨hl1, hl2⟩ := len_remove_twice_present hs hl ht hv
    have hf1 := hf _ (Reachable.remove v ht)
    have hf2 := hf _ (reachable_removeTwice ht v)
    have := ih (removeTwice tr t v) (reachable_removeTwice ht v) hnd.2 hrest
    rw [hl2] at this
    unfold removeTwice at hl2 hf2
    simp only [ciadRemoveLoop, hl1, hl2, hf1, hf2, bne_self_eq_false, Bool.not_true,
      Bool.false_eq_true, if_false, List.foldl_cons, List.length_cons]
    rw [show tr.Remove (tr.Remove t v) v = removeTwice tr t v from rfl, this]
    congr 2
    push_cast; ring

/-- A value already present, or occurring twice, makes the first loop return false. -/
theorem ciadInsertLoop_duplicate (hs : SetModel tr mem) (hl : LenContract tr mem) :
    ∀ (l : List Int) (t : T), Reachable tr t → ¬ (l.Nodup ∧ ∀ v ∈ l, ¬ mem t v) →
      ciadInsertLoop tr l t (tr.Len t) = none := by
  intro l
  induction l with
  | nil => intro t _ h; simp at h
  | cons v rest ih =>
    intro t ht hbad
    by_cases hv : mem t v
    · have h1 := hl.len_insert_present t ht v hv
      simp [ciadInsertLoop, h1]
    · obtain ⟨hl1, hl2⟩ := len_insert_twice_absent hs hl ht hv
      have hbad2 : ¬ (rest.Nodup ∧ ∀ x ∈ rest, ¬ mem (insertTwice tr t v) x) := by
        rintro ⟨hnd, habs⟩
        apply hbad
        refine ⟨List.nodup_cons.2 ⟨?_, hnd⟩, ?_⟩
        · intro hin
          exact habs v hin ((mem_insertTwice hs ht v v).2 (Or.inl rfl))
        · intro x hx
          rcases List.mem_cons.1 hx with h | h
          · exact h ▸ hv
          · exact fun hm => habs x h ((mem_insertTwice hs ht v x).2 (Or.inr hm))
      have := ih (insertTwice tr t v) (reachable_insertTwice ht v) hbad2
      rw [hl2] at this
      unfold insertTwice at hl2 this
      simp only [ciadInsertLoop, hl1, hl2, bne_self_eq_false, Bool.false_eq_true, if_false]
      split
      · rfl
      · split
        · rfl
        · exact this

end Ciad


/-! ## The reference container follows the contracts -/

theorem mem_refInsert (v w : Int) (l : List Int) :
    w ∈ refInsert intLess v l ↔ (w = v ∨ w ∈ l) := by
  induction l with
  | nil => simp [refInsert]
  | cons x xs ih =>
    unfold refInsert
    by_cases h1 : v < x
    · simp [intLess, h1]
    · by_cases h2 : x < v
      · simp only [intLess, h1, h2, decide_True, decide_False, if_true, if_false,
          Bool.false_eq_true, List.mem_cons, ih]
        tauto
      · have hxv : v = x := by omega
        simp only [intLess, h1, h2, decide_False, if_false, Bool.false_eq_true, List.mem_cons]
        subst hxv
        tauto

theorem sorted_refInsert (v : Int) (l : List Int) (hl : l.Sorted (· < ·)) :
    (refInsert intLess v l).Sorted (· < ·) := by
  induction l with
  | nil => simp [refInsert]
  | cons x xs ih =>
    have hx := List.sorted_cons.1 hl
    unfold refInsert
    by_cases h1 : v < x
    · simp only [intLess, h1, decide_True, if_true]
      refine List.sorted_cons.2 ⟨?_, hl⟩
      intro b hb
      rcases List.mem_cons.1 hb with h | h
      · exact h ▸ h1
      · exact lt_trans h1 (hx.1 b h)
    · by_cases h2 : x < v
      · simp only [intLess, h1, h2, decide_True, decide_False, if_true, if_false,
          Bool.false_eq_true]
        refine List.sorted_cons.2 ⟨?_, ih hx.2⟩
        intro b hb
        rcases (mem_refInsert v b xs).1 hb with h | h
        · exact h ▸ h2
        · exact hx.1 b h
      · simpa only [intLess, h1, h2, decide_False, if_false, Bool.false_eq_true] using hl

theorem refContains_iff (v : Int) (l : List Int) (hl : l.Sorted (· < ·)) :
    refContains intLess v l = true ↔ v ∈ l := by
  induction l with
  | nil => simp [refContains]
  | cons x xs ih =>
    have hx := List.sorted_cons.1 hl
    unfold refContains
    by_cases h1 : v < x
    · simp only [intLess, h1, decide_True, if_true, Bool.false_eq_true, List.mem_cons, false_iff]
      rintro (h | h)
      · omega
      · have := hx.1 v h
        omega
    · by_cases h2 : x < v
      · simp only [intLess, h1, h2, decide_True, decide_False, if_true, if_false,
          Bool.false_eq_true, List.mem_cons, ih hx.2]
        constructor
        · exact Or.inr
        · rintro (h | h)
          · omega
          · exact h
      · have hxv : v = x := by omega
        simp [intLess, h1, h2, hxv]

theorem mem_refRemove (v w : Int) (l : List Int) (hl : l.Sorted (· < ·)) :
    w ∈ refRemove intLess v l ↔ (w ≠ v ∧ w ∈ l) := by
  induction l with
  | nil => simp [refRemove]
  | cons x xs ih =>
    have hx := List.sorted_cons.1 hl
    unfold refRemove
    by_cases h1 : v < x
    · simp only [intLess, h1, decide_True, if_true, List.mem_cons]
      constructor
      · rintro (h | h)
        · exact ⟨by omega, Or.inl h⟩
        · have := hx.1 w h
          exact ⟨by omega, Or.inr h⟩
      · exact fun h => h.2
    · by_cases h2 : x < v
      · simp only [intLess, h1, h2, decide_True, decide_False, if_true, if_false,
          Bool.false_eq_true, List.mem_cons, ih hx.2]
        constructor
        · rintro (h | h)
          · exact ⟨by omega, Or.inl h⟩
          · exact ⟨h.1, Or.inr h.2⟩
        · rintro ⟨h, h3 | h3⟩
          · exact Or.inl h3
          · exact Or.inr ⟨h, h3⟩
      · have hxv : v = x := by omega
        simp only [intLess, h1, h2, decide_False, if_false, Bool.false_eq_true, List.mem_cons]
        subst hxv
        constructor
        · intro h
          have := hx.1 w h
          exact ⟨by omega, Or.inr h⟩
        · rintro ⟨h, h3 | h3⟩
          · exact absurd h3 h
          · exact h3

theorem sorted_refRemove (v : Int) (l : List Int) (hl : l.Sorted (· < ·)) :
    (refRemove intLess v l).Sorted (· < ·) := by
  induction l with
  | nil => simp [refRemove]
  | cons x xs ih =>
    have hx := List.sorted_cons.1 hl
    unfold refRemove
    by_cases h1 : v < x
    · simpa only [intLess, h1, decide_True, if_true] using hl
    · by_cases h2 : x < v
      · simp only [intLess, h1, h2, decide_True, decide_False, if_true, if_false,
          Bool.false_eq_true]
        refine List.sorted_cons.2 ⟨?_, ih hx.2⟩
        intro b hb
        exact hx.1 b ((mem_refRemove v b xs hx.2).1 hb).2
      · simpa only [intLess, h1, h2, decide_False, if_false, Bool.false_eq_true] using hx.2

theorem length_refInsert (v : Int) (l : List Int) (hv : v ∉ l) :
    (refInsert intLess v l).length = l.length + 1 := by
  induction l with
  | nil => simp [refInsert]
  | cons x xs ih =>
    rw [List.mem_cons, not_or] at hv
    unfold refInsert
    by_cases h1 : v < x
    · simp [intLess, h1]
    · by_cases h2 : x < v
      · simp [intLess, h1, h2, ih hv.2]
      · exact absurd (show v = x by omega) hv.1

theorem length_refRemove (v : Int) (l : List Int) (hl : l.Sorted (· < ·)) (hv : v ∈ l) :
    (refRemove intLess v l).length + 1 = l.length := by
  induction l with
  | nil => simp at hv
  | cons x xs ih =>
    have hx := List.sorted_cons.1 hl
    unfold refRemove
    by_cases h1 : v < x
    · exfalso
      rcases List.mem_cons.1 hv with h | h
      · omega
      · have := hx.1 v h
        omega
    · by_cases h2 : x < v
      · have hin : v ∈ xs := by
          rcases List.mem_cons.1 hv with h | h
          · omega
          · exact h
        simp [intLess, h1, h2, ih hx.2 hin]
      · simp [intLess, h1, h2]

theorem refOrdered_of_sorted (l : List Int) (hl : l.Sorted (· < ·)) :
    refOrdered intLess l = true := by
  induction l with
  | nil => rfl
  | cons x xs ih =>
    have hx := List.sorted_cons.1 hl
    cases xs with
    | nil => rfl
    | cons y ys =>
      unfold refOrdered
      simp [intLess, hx.1 y (List.mem_cons_self y ys), ih hx.2]

theorem refInv_of_reachable {t : RefTree} (ht : Reachable refTree t) : RefInv t := by
  induction ht with
  | new => exact ⟨rfl, List.sorted_nil, rfl⟩
  | @insert t v _ ih =>
    obtain ⟨h1, h2, h3⟩ := ih
    by_cases hc : refContains t.less v t.elems = true
    · simpa [refTree, hc] using ⟨h1, h2, h3⟩
    · have hv : v ∉ t.elems := by
        rw [h1] at hc
        exact fun h => hc ((refContains_iff v _ h2).2 h)
      simp only [refTree, hc, if_false, Bool.false_eq_true]
      refine ⟨h1, ?_, ?_⟩
      · simpa [h1] using sorted_refInsert v _ h2
      · simp only [h1, length_refInsert v _ hv, h3]
        push_cast; ring
  | @remove t v _ ih =>
    obtain ⟨h1, h2, h3⟩ := ih
    by_cases hc : refContains t.less v t.elems = true
    · have hv : v ∈ t.elems := by
        rw [h1] at hc
        exact (refContains_iff v _ h2).1 hc
      simp only [refTree, hc, if_true]
      refine ⟨h1, ?_, ?_⟩
      · simpa [h1] using sorted_refRemove v _ h2
      · have := length_refRemove v _ h2 hv
        simp only [h1, h3]
        omega
    · simpa [refTree, hc] using ⟨h1, h2, h3⟩

theorem refTree_setModel : SetModel refTree refMem where
  mem_new := by intro w; simp [refMem, refTree]
  mem_insert := by
    intro t ht v w
    obtain ⟨h1, h2, _⟩ := refInv_of_reachable ht
    by_cases hc : refContains t.less v t.elems = true
    · have hv : v ∈ t.elems := by
        rw [h1] at hc
        exact (refContains_iff v _ h2).1 hc
      simp only [refMem, refTree, hc, if_true]
      constructor
      · exact Or.inr
      · rintro (h | h)
        · exact h ▸ hv
        · exact h
    · rw [h1] at hc
      simp only [refMem, refTree, h1, hc, if_false, Bool.false_eq_true]
      exact mem_refInsert v w _
  mem_remove := by
    intro t ht v w
    obtain ⟨h1, h2, _⟩ := refInv_of_reachable ht
    by_cases hc : refContains t.less v t.elems = true
    · rw [h1] at hc
      simp only [refMem, refTree, h1, hc, if_true]
      exact mem_refRemove v w _ h2
    · have hv : v ∉ t.elems := by
        rw [h1] at hc
        exact fun h => hc ((refContains_iff v _ h2).2 h)
      simp only [refMem, refTree, hc, if_false, Bool.false_eq_true]
      constructor
      · intro h
        exact ⟨fun e => hv (e ▸ h), h⟩
      · exact fun h => h.2

theorem refTree_lenContract : LenContract refTree refMem where
  len_new := rfl
  len_insert_absent := by
    intro t ht v hv
    obtain ⟨h1, h2, _⟩ := refInv_of_reachable ht
    have hc : ¬ refContains t.less v t.elems = true := by
      rw [h1]
      exact fun h => hv ((refContains_iff v _ h2).1 h)
    simp [refTree, hc]
  len_insert_present := by
    intro t ht v hv
    obtain ⟨h1, h2, _⟩ := refInv_of_reachable ht
    have hc : refContains t.less v t.elems = true := by
      rw [h1]
      exact (refContains_iff v _ h2).2 hv
    simp [refTree, hc]
  len_remove_present := by
    intro t ht v hv
    obtain ⟨h1, h2, _⟩ := refInv_of_reachable ht
    have hc : refContains t.less v t.elems = true := by
      rw [h1]
      exact (refContains_iff v _ h2).2 hv
    simp [refTree, hc]
  len_remove_absent := by
    intro t ht v hv
    obtain ⟨h1, h2, _⟩ := refInv_of_reachable ht
    have hc : ¬ refContains t.less v t.elems = true := by
      rw [h1]
      exact fun h => hv ((refContains_iff v _ h2).1 h)
    simp [refTree, hc]

theorem refTree_fsckPasses : FsckPasses refTree := by
  intro t ht
  obtain ⟨h1, h2, h3⟩ := refInv_of_reachable ht
  simp [refTree, h1, refOrdered_of_sorted _ h2, h3]


/-! ## `CheckInsertsAndDeletes` against a tree that follows the set contract -/

section CiadRun

variable {T : Type} {tr : TreeOps T} {mem : T → Int → Prop}

theorem reachable_treeAfterInserts (tr : TreeOps T) (l : List Int) :
    Reachable tr (treeAfterInserts tr l) := by
  have key : ∀ (l : List Int) (t : T), Reachable tr t →
      Reachable tr (l.foldl (insertTwice tr) t) := by
    intro l
    induction l with
    | nil => exact fun _ h => h
    | cons v rest ih => exact fun t h => ih _ (reachable_insertTwice h v)
  exact key l _ Reachable.new

/-- After the first loop has run over distinct values `l`: `Len` is their
number and the tree holds exactly them. -/
theorem treeAfterInserts_spec (hs : SetModel tr mem) (hl : LenContract tr mem)
    (l : List Int) (hnd : l.Nodup) :
    tr.Len (treeAfterInserts tr l) = l.length ∧
      ∀ w, mem (treeAfterInserts tr l) w ↔ w ∈ l := by
  obtain ⟨_, h2, h3⟩ := foldl_insertTwice_spec hs hl l (tr.NewTree intLess) Reachable.new hnd
    (fun v _ => hs.mem_new v)
  refine ⟨?_, ?_⟩
  · rw [treeAfterInserts, h2, hl.len_new, zero_add]
  · intro w
    rw [treeAfterInserts, h3]
    simp [hs.mem_new w]

/-- After the second loop has run over `l`, a duplicate-free part of the
distinct values `d` inserted before. -/
theorem treeAfterRemoves_spec (hs : SetModel tr mem) (hl : LenContract tr mem)
    (d l : List Int) (hd : d.Nodup) (hnd : l.Nodup) (hsub : ∀ v ∈ l, v ∈ d) :
    tr.Len (treeAfterRemoves tr d l) = (d.length : Int) - l.length ∧
      Reachable tr (treeAfterRemoves tr d l) ∧
      ∀ w, mem (treeAfterRemoves tr d l) w ↔ (w ∉ l ∧ w ∈ d) := by
  obtain ⟨i1, i2⟩ := treeAfterInserts_spec hs hl d hd
  obtain ⟨h1, h2, h3⟩ := foldl_removeTwice_spec hs hl l (treeAfterInserts tr d)
    (reachable_treeAfterInserts tr d) hnd (fun v hv => (i2 v).2 (hsub v hv))
  refine ⟨?_, h1, ?_⟩
  · rw [treeAfterRemoves, h2, i1]
  · intro w
    rw [treeAfterRemoves, h3, i2]

/-- On distinct values both loops run to the end with `count` back at 0. -/
theorem ciadRun_distinct (hs : SetModel tr mem) (hl : LenContract tr mem)
    (hf : FsckPasses tr) (d : List Int) (hd : d.Nodup) :
    ciadRun tr d = some (treeAfterRemoves tr d d, 0) := by
  obtain ⟨i1, i2⟩ := treeAfterInserts_spec hs hl d hd
  have h1 := ciadInsertLoop_distinct hs hl hf d (tr.NewTree intLess) Reachable.new hd
    (fun v _ => hs.mem_new v)
  rw [hl.len_new, zero_add] at h1
  have h2 := ciadRemoveLoop_distinct hs hl hf d (treeAfterInserts tr d)
    (reachable_treeAfterInserts tr d) hd (fun v hv => (i2 v).2 hv)
  rw [i1, sub_self] at h2
  unfold ciadRun
  rw [h1]
  exact h2

/-- A value occurring twice makes the first loop, and so the run, fail. -/
theorem ciadRun_duplicate (hs : SetModel tr mem) (hl : LenContract tr mem)
    (d : List Int) (hd : ¬ d.Nodup) : ciadRun tr d = none := by
  have h1 := ciadInsertLoop_duplicate hs hl d (tr.NewTree intLess) Reachable.new
    (fun h => hd h.1)
  rw [hl.len_new] at h1
  unfold ciadRun
  rw [h1]

theorem nodup_split {d pre post : List Int} {v : Int} (hd : d.Nodup)
    (he : d = pre ++ v :: post) : pre.Nodup ∧ v ∉ pre ∧ (∀ x ∈ pre, x ∈ d) ∧ v ∈ d := by
  subst he
  have h1 := (List.nodup_append.1 hd)
  refine ⟨h1.1, ?_, ?_, ?_⟩
  · intro hv
    exact h1.2.2 hv (List.mem_cons_self v post) 
  · intro x hx
    exact List.mem_append_left _ hx
  · exact List.mem_append_right _ (List.mem_cons_self v post)

end CiadRun

/-- C1: against a tree that follows the set contract and whose fsck passes on
every tree reached, `CheckInsertsAndDeletes` returns true on pairwise distinct
integers `d`.  `Len` is k after the k-th insert and after its repeat (k-1 values
`pre` come before the k-th value `v`), is `len(d) - k` after the k-th remove and
after its repeat, and is 0 at the end, where `count` is 0 too. -/
theorem checkInsertsAndDeletes_distinct {T : Type} (tr : TreeOps T) (mem : T → Int → Prop)
    (hs : SetModel tr mem) (hl : LenContract tr mem) (hf : FsckPasses tr)
    (d : List Int) (hd : d.Nodup) :
    CheckInsertsAndDeletes tr d = true ∧
    (∀ pre v post, d = pre ++ v :: post →
      tr.Len (tr.Insert (treeAfterInserts tr pre) v) = (pre.length : Int) + 1 ∧
      tr.Len (tr.Insert (tr.Insert (treeAfterInserts tr pre) v) v) = (pre.length : Int) + 1) ∧
    (∀ pre v post, d = pre ++ v :: post →
      tr.Len (tr.Remove (treeAfterRemoves tr d pre) v)
        = (d.length : Int) - ((pre.length : Int) + 1) ∧
      tr.Len (tr.Remove (tr.Remove (treeAfterRemoves tr d pre) v) v)
        = (d.length : Int) - ((pre.length : Int) + 1)) ∧
    ciadRun tr d = some (treeAfterRemoves tr d d, 0) ∧
    tr.Len (treeAfterRemoves tr d d) = 0 := by
  have hrun := ciadRun_distinct hs hl hf d hd
  refine ⟨?_, ?_, ?_, hrun, ?_⟩
  · unfold CheckInsertsAndDeletes
    rw [hrun]
  · intro pre v post he
    obtain ⟨hp, hv, _, _⟩ := nodup_split hd he
    obtain ⟨i1, i2⟩ := treeAfterInserts_spec hs hl pre hp
    have habs : ¬ mem (treeAfterInserts tr pre) v := fun h => hv ((i2 v).1 h)
    have := len_insert_twice_absent hs hl (reachable_treeAfterInserts tr pre) habs
    unfold insertTwice at this
    rw [i1] at this
    exact this
  · intro pre v post he
    obtain ⟨hp, hv, hsub, hvd⟩ := nodup_split hd he
    obtain ⟨r1, r2, r3⟩ := treeAfterRemoves_spec hs hl d pre hd hp hsub
    have hpres : mem (treeAfterRemoves tr d pre) v := (r3 v).2 ⟨hv, hvd⟩
    have := len_remove_twice_present hs hl r2 hpres
    unfold removeTwice at this
    rw [r1] at this
    constructor
    · rw [this.1]; ring
    · rw [this.2]; ring
  · have := (treeAfterRemoves_spec hs hl d d hd hd (fun _ h => h)).1
    rw [this, sub_self]

/-- C1 at the reference container and the values 5, 1, 8, 3. -/
theorem checkInsertsAndDeletes_distinct_witness :
    CheckInsertsAndDeletes refTree [5, 1, 8, 3] = true ∧
    refTree.Len (treeAfterRemoves refTree [5, 1, 8, 3] [5, 1, 8, 3]) = 0 :=
  have h := checkInsertsAndDeletes_distinct refTree refMem refTree_setModel
    refTree_lenContract refTree_fsckPasses [5, 1, 8, 3] (by decide)
  ⟨h.1, h.2.2.2.2⟩

/-- C9: against a tree that follows the set contract and whose fsck always
passes, `CheckInsertsAndDeletes` returns false on every list in which some
value occurs more than once, and it returns true if and only if the list has
no duplicates. -/
theorem checkInsertsAndDeletes_iff_nodup {T : Type} (tr : TreeOps T) (mem : T → Int → Prop)
    (hs : SetModel tr mem) (hl : LenContract tr mem) (hf : FsckPasses tr) (d : List Int) :
    ((∃ v, 1 < d.count v) → CheckInsertsAndDeletes tr d = false) ∧
    (CheckInsertsAndDeletes tr d = true ↔ d.Nodup) := by
  have hdup : ¬ d.Nodup → CheckInsertsAndDeletes tr d = false := by
    intro hd
    unfold CheckInsertsAndDeletes
    rw [ciadRun_duplicate hs hl d hd]
  refine ⟨?_, ?_, ?_⟩
  · rintro ⟨v, hv⟩
    apply hdup
    intro hnd
    have := List.nodup_iff_count_le_one.1 hnd v
    omega
  · intro h
    by_contra hd
    rw [hdup hd] at h
    exact Bool.false_ne_true h
  · intro hd
    unfold CheckInsertsAndDeletes
    rw [ciadRun_distinct hs hl hf d hd]

/-- C9 at the reference container and the values 5, 1, 5, 3, where 5 occurs twice. -/
theorem checkInsertsAndDeletes_iff_nodup_witness :
    1 < ([5, 1, 5, 3] : List Int).count 5 ∧
    CheckInsertsAndDeletes refTree [5, 1, 5, 3] = false :=
  ⟨by decide,
    (checkInsertsAndDeletes_iff_nodup refTree refMem refTree_setModel refTree_lenContract
      refTree_fsckPasses [5, 1, 5, 3]).1 ⟨5, by decide⟩⟩

/-! ## The groups of `CheckQueries` -/

/-- Where the product does not leave the range of a `w`-bit `int`, Go's bound
is the quotient of natural numbers used in `groupLow` and, at `i + 1`, in
`groupHigh`. -/
theorem groupBoundGo_eq (w n i : Nat) (hw : 0 < w) (hi : i ≤ divs)
    (hn : divs * n < 2 ^ (w - 1)) : groupBoundGo w n i = (groupLow n i : Int) := by
  have hle : n * i ≤ divs * n := by
    rw [Nat.mul_comm divs n]
    exact Nat.mul_le_mul_left n hi
  have hx0 : (0 : Int) ≤ (n : Int) * (i : Int) := by positivity
  have hxH : (n : Int) * (i : Int) < 2 ^ (w - 1) := by
    have : n * i < 2 ^ (w - 1) := lt_of_le_of_lt hle hn
    exact_mod_cast this
  have hpow : (2 : Int) ^ w = 2 * 2 ^ (w - 1) := by
    obtain ⟨k, rfl⟩ : ∃ k, w = k + 1 := ⟨w - 1, by omega⟩
    simp [pow_succ, mul_comm]
  have hH : (0 : Int) < 2 ^ (w - 1) := by positivity
  have hwrap : goIntWrap w ((n : Int) * (i : Int)) = (n : Int) * (i : Int) := by
    unfold goIntWrap
    rw [Int.emod_eq_of_lt (by omega) (by omega)]
    ring
  unfold groupBoundGo groupLow
  rw [hwrap, Int.ofNat_tdiv]
  push_cast
  rfl

theorem groupHigh_eq_groupLow_succ (n i : Nat) : groupHigh n i = groupLow n (i + 1) := rfl

section Queries

variable {T : Type} {tr : TreeOps T} {mem : T → Int → Prop}

theorem insertAll_spec (hs : SetModel tr mem) :
    ∀ (g : List Int) (t : T), Reachable tr t →
      Reachable tr (insertAll tr g t) ∧ ∀ w, mem (insertAll tr g t) w ↔ (w ∈ g ∨ mem t w) := by
  intro g
  induction g with
  | nil => intro t ht; simp [insertAll, ht]
  | cons v rest ih =>
    intro t ht
    obtain ⟨h1, h2⟩ := ih (tr.Insert t v) (Reachable.insert v ht)
    refine ⟨h1, ?_⟩
    intro w
    have := h2 w
    unfold insertAll at this ⊢
    rw [List.foldl_cons, this, hs.mem_insert t ht, List.mem_cons]
    tauto

theorem removeAll_spec (hs : SetModel tr mem) :
    ∀ (g : List Int) (t : T), Reachable tr t →
      Reachable tr (removeAll tr g t) ∧ ∀ w, mem (removeAll tr g t) w ↔ (w ∉ g ∧ mem t w) := by
  intro g
  induction g with
  | nil => intro t ht; simp [removeAll, ht]
  | cons v rest ih =>
    intro t ht
    obtain ⟨h1, h2⟩ := ih (tr.Remove t v) (Reachable.remove v ht)
    refine ⟨h1, ?_⟩
    intro w
    have := h2 w
    unfold removeAll at this ⊢
    rw [List.foldl_cons, this, hs.mem_remove t ht, List.mem_cons]
    tauto

end Queries

theorem foldl_set_index (v : List Int) :
    ∀ m, m ≤ v.length →
      (List.range m).foldl (fun a i => a.set i (i : Int)) v =
        (List.range m).map (fun i : Nat => (i : Int)) ++ v.drop m := by
  intro m
  induction m with
  | zero => intro _; simp
  | succ m ih =>
    intro hm
    have hlt : m < v.length := hm
    rw [List.range_succ, List.foldl_append, ih (Nat.le_of_lt hlt), List.map_append,
      List.foldl_cons, List.foldl_nil]
    have hlen : ((List.range m).map (fun i : Nat => (i : Int))).length = m := by simp
    rw [List.set_append_right _ _ (by rw [hlen]), hlen, Nat.sub_self,
      List.drop_eq_getElem_cons hlt, List.set_cons_zero, List.map_cons, List.map_nil,
      List.append_assoc, List.singleton_append]

theorem fillWithIndex_eq (v : List Int) :
    fillWithIndex v = (List.range v.length).map (fun i : Nat => (i : Int)) := by
  unfold fillWithIndex
  rw [foldl_set_index v v.length le_rfl, List.drop_length, List.append_nil]

/-- C3, evaluated: `vdec` is built by the same loop as `vinc` and is the
sequence 0, 1, ..., 9999; it starts 0, 1 and so is not strictly decreasing. -/
theorem vdec_is_increasing :
    vdec = vinc ∧ vdec = (List.range 10000).map (fun i : Nat => (i : Int)) ∧
    vdec[0]? = some 0 ∧ vdec[1]? = some 1 ∧
    ¬ (∀ i j : Nat, i < j → j < 10000 →
        ∀ a b : Int, vdec[i]? = some a → vdec[j]? = some b → a > b) := by
  have h : vdec = (List.range 10000).map (fun i : Nat => (i : Int)) := by
    unfold vdec
    rw [fillWithIndex_eq, List.length_replicate]
    simp only [testSize]
  refine ⟨rfl, h, ?_, ?_, ?_⟩
  · rw [h]; simp
  · rw [h]; simp
  · intro hall
    have := hall 0 1 (by decide) (by decide) 0 1 (by rw [h]; simp) (by rw [h]; simp)
    omega

/-! ## bench.go: the calls of `Bench` -/

theorem map_getD_range (d : List Int) :
    ∀ m, m ≤ d.length → (List.range m).map (fun i => d.getD i 0) = d.take m := by
  intro m
  induction m with
  | zero => intro _; simp
  | succ m ih =>
    intro hm
    have hlt : m < d.length := hm
    rw [List.range_succ, List.map_append, ih (Nat.le_of_lt hlt), List.take_succ,
      List.getElem?_eq_getElem hlt, List.map_cons, List.map_nil,
      List.getD_eq_getElem _ _ hlt]
    rfl

/-- The index loop over the first half makes the `Remove` calls for
`d[0], ..., d[len(d)/2 - 1]`, each index being in range. -/
theorem benchCalls_remove (d : List Int) :
    benchCalls d 2 = (d.take (d.length / 2)).map Call.remove ∧
    benchCalls d 3 = (d.take (d.length / 2)).map Call.remove := by
  have h : (List.range (d.length / 2)).map (fun i => Call.remove (d.getD i 0))
      = (d.take (d.length / 2)).map Call.remove := by
    rw [← map_getD_range d (d.length / 2) (Nat.div_le_self _ _), List.map_map]
    rfl
  exact ⟨h, h⟩

theorem benchCalls_length (d : List Int) :
    (benchCalls d 0).length = d.length ∧ (benchCalls d 1).length = d.length ∧
    (benchCalls d 2).length = d.length / 2 ∧ (benchCalls d 3).length = d.length / 2 ∧
    (benchCalls d 4).length = d.length := by
  simp [benchCalls]

theorem benchCalls_kind (d : List Int) :
    (∀ c ∈ benchCalls d 0, ∃ v, c = Call.insert v) ∧
    (∀ c ∈ benchCalls d 1, ∃ v, c = Call.insert v) ∧
    (∀ c ∈ benchCalls d 2, ∃ v, c = Call.remove v) ∧
    (∀ c ∈ benchCalls d 3, ∃ v, c = Call.remove v) ∧
    (∀ c ∈ benchCalls d 4, ∃ v, c = Call.contains v) := by
  refine ⟨?_, ?_, ?_, ?_, ?_⟩ <;> intro c hc <;> simp only [benchCalls, List.mem_map] at hc <;>
    obtain ⟨a, _, rfl⟩ := hc <;> exact ⟨_, rfl⟩

/-- C5: for `d` a permutation of `0..N-1` the fifth phase of `Bench(d)` makes
exactly `N` calls, all of them `Contains`, and the values it passes are a
rearrangement of the elements of `d`, each element of `d` being queried exactly
once. -/
theorem bench_query_phase_full_scan {T F : Type} (tr : TreeOps T) (fl : FloatOps F)
    (clock : Nat → Int) (reads N : Nat) (d : List Int)
    (hperm : d.Perm ((List.range N).map (fun i : Nat => (i : Int)))) :
    ((Bench tr fl clock reads d).1.calls 4).length = N ∧
    (∀ c ∈ (Bench tr fl clock reads d).1.calls 4, ∃ v, c = Call.contains v) ∧
    (((Bench tr fl clock reads d).1.calls 4).map Call.arg).Perm d ∧
    (∀ x ∈ d, ((Bench tr fl clock reads d).1.calls 4).count (Call.contains x) = 1) := by
  have hlen : d.length = N := by
    rw [hperm.length_eq]; simp
  have hcalls : (Bench tr fl clock reads d).1.calls 4 =
      ((List.range N).map (fun i : Nat => (i : Int))).map Call.contains := by
    show benchCalls d 4 = _
    simp only [benchCalls, hlen, List.map_map]
    rfl
  have hinj : Function.Injective Call.contains := by
    intro a b h
    injection h
  have hnd : d.Nodup := by
    rw [hperm.nodup_iff]
    exact (List.nodup_range N).map (fun a b h => by exact_mod_cast h)
  refine ⟨?_, ?_, ?_, ?_⟩
  · rw [hcalls]; simp
  · exact (benchCalls_kind d).2.2.2.2
  · rw [hcalls, List.map_map]
    have : (Call.arg ∘ Call.contains) = id := rfl
    rw [this, List.map_id]
    exact hperm.symm
  · intro x hx
    rw [hcalls, List.count_map_of_injective _ _ hinj, ← hperm.count_eq]
    exact List.count_eq_one_of_mem hnd hx

/-- C5 at the permutation 2, 0, 3, 1 of 0..3. -/
theorem bench_query_phase_full_scan_witness :
    (((Bench refTree ratOps sampleClock 0 [2, 0, 3, 1]).1.calls 4).map Call.arg).Perm
      [2, 0, 3, 1] :=
  (bench_query_phase_full_scan refTree ratOps sampleClock 0 4 [2, 0, 3, 1] (by decide)).2.2.1

/-! ## bench.go: the runs of `main` -/

section MainLoop

variable {T F : Type} (tr : TreeOps T) (fl : FloatOps F) (clock : Nat → Int) (d : List Int)

/-- After `n` iterations of the loop of `main`: the runs made are `Bench(d)`
at the successive clock positions, and `total[j]` has had their `times[j]`
added in that order. -/
theorem mainLoop_spec :
    ∀ (n : Nat) (s : LoopState T F),
      (mainLoop tr fl clock d n s).runs =
        s.runs ++ (List.range n).map (fun m => (Bench tr fl clock (s.reads + 10 * m) d).1) ∧
      (mainLoop tr fl clock d n s).reads = s.reads + 10 * n ∧
      ∀ j, (mainLoop tr fl clock d n s).total j =
        ((List.range n).map (fun m => (Bench tr fl clock (s.reads + 10 * m) d).1)).foldl
          (fun acc r => fl.add acc (r.times j)) (s.total j) := by
  intro n
  induction n with
  | zero => intro s; simp [mainLoop]
  | succ n ih =>
    intro s
    obtain ⟨h1, h2, h3⟩ := ih (loopStep tr fl clock d s)
    have hr : (loopStep tr fl clock d s).reads = s.reads + 10 := rfl
    have hmap : (List.range (n + 1)).map (fun m => (Bench tr fl clock (s.reads + 10 * m) d).1)
        = (Bench tr fl clock s.reads d).1 ::
          (List.range n).map (fun m => (Bench tr fl clock (s.reads + 10 + 10 * m) d).1) := by
      rw [List.range_succ_eq_map, List.map_cons, List.map_map]
      congr 1
      apply List.map_congr_left
      intro m _
      show (Bench tr fl clock (s.reads + 10 * (m + 1)) d).1 = _
      congr 2
      ring
    refine ⟨?_, ?_, ?_⟩
    · show (mainLoop tr fl clock d n (loopStep tr fl clock d s)).runs = _
      rw [h1, hr, hmap]
      show (s.runs ++ [(Bench tr fl clock s.reads d).1]) ++ _ = _
      simp
    · show (mainLoop tr fl clock d n (loopStep tr fl clock d s)).reads = _
      rw [h2, hr]
      ring
    · intro j
      show (mainLoop tr fl clock d n (loopStep tr fl clock d s)).total j = _
      rw [h3 j, hr, hmap, List.foldl_cons]
      rfl

/-- The runs of `main`: one run of `Bench(d)`, then one per iteration of the
loop, run `m` starting after `10 * m` clock reads. -/
theorem main_runs (N R : Int) :
    (main tr fl clock N R d).runs =
      (List.range (1 + (R - 1).toNat)).map (fun m => (Bench tr fl clock (10 * m) d).1) := by
  have h := (mainLoop_spec tr fl clock d (R - 1).toNat
    { reads := (Bench tr fl clock 0 d).2, total := (Bench tr fl clock 0 d).1.times,
      runs := [(Bench tr fl clock 0 d).1] }).1
  show (mainLoop tr fl clock d (R - 1).toNat _).runs = _
  rw [h, Nat.add_comm 1, List.range_succ_eq_map, List.map_cons, List.map_map]
  show [(Bench tr fl clock 0 d).1] ++ _ = _
  rw [List.singleton_append]
  congr 1
  apply List.map_congr_left
  intro m _
  show (Bench tr fl clock (10 + 10 * m) d).1 = (Bench tr fl clock (10 * (m + 1)) d).1
  congr 2
  ring

/-- The lines `main` prints: `total[k] / float(R)`, where `total[k]` is the
time of the first run with the times of the later runs added in order, then
the count and the name. -/
theorem main_lines (N R : Int) :
    (main tr fl clock N R d).lines =
      (let later := (List.range (R - 1).toNat).map
          (fun m => (Bench tr fl clock (10 + 10 * m) d).1)
       let total : Fin 5 → F := fun k =>
          fl.div (later.foldl (fun acc r => fl.add acc (r.times k))
            ((Bench tr fl clock 0 d).1.times k)) (fl.ofInt R)
       [(total 0, N, names 0), (total 1, N, names 1), (total 2, Int.tdiv N 2, names 2),
        (total 3, Int.tdiv N 2, names 3), (total 4, N, names 4)]) := by
  have h := (mainLoop_spec tr fl clock d (R - 1).toNat
    { reads := (Bench tr fl clock 0 d).2, total := (Bench tr fl clock 0 d).1.times,
      runs := [(Bench tr fl clock 0 d).1] }).2.2
  show [(fl.div ((mainLoop tr fl clock d (R - 1).toNat _).total 0) (fl.ofInt R), N, names 0),
    (fl.div ((mainLoop tr fl clock d (R - 1).toNat _).total 1) (fl.ofInt R), N, names 1),
    (fl.div ((mainLoop tr fl clock d (R - 1).toNat _).total 2) (fl.ofInt R), Int.tdiv N 2,
      names 2),
    (fl.div ((mainLoop tr fl clock d (R - 1).toNat _).total 3) (fl.ofInt R), Int.tdiv N 2,
      names 3),
    (fl.div ((mainLoop tr fl clock d (R - 1).toNat _).total 4) (fl.ofInt R), N, names 4)] = _
  rw [h 0, h 1, h 2, h 3, h 4]
  rfl

/-- The runs of `main`, the first apart from those of the loop. -/
theorem main_runs_cons (N R : Int) :
    (main tr fl clock N R d).runs =
      (Bench tr fl clock 0 d).1 ::
        (List.range (R - 1).toNat).map (fun m => (Bench tr fl clock (10 + 10 * m) d).1) := by
  have h := (mainLoop_spec tr fl clock d (R - 1).toNat
    { reads := (Bench tr fl clock 0 d).2, total := (Bench tr fl clock 0 d).1.times,
      runs := [(Bench tr fl clock 0 d).1] }).1
  show (mainLoop tr fl clock d (R - 1).toNat _).runs = _
  rw [h]
  rfl

theorem main_runs_mem (N R : Int) (run : BenchRun T F)
    (h : run ∈ (main tr fl clock N R d).runs) :
    run.input = d ∧ run.start = tr.NewTree intLess ∧ run.calls = benchCalls d ∧
      run.after = benchTrees tr d (tr.NewTree intLess) := by
  rw [main_runs, List.mem_map] at h
  obtain ⟨m, _, rfl⟩ := h
  exact ⟨rfl, rfl, rfl, rfl⟩

theorem main_runs_length (N R : Int) :
    (main tr fl clock N R d).runs.length = 1 + (R - 1).toNat := by
  rw [main_runs]
  simp

end MainLoop

/-- C6: for `d` of length `N` the count `main` prints on each of its five lines,
in the fixed order of the phases, is the number of calls every run of
`Bench(d)` makes in that phase: `N` times `Insert`, `N` times `Insert`,
`N/2` times `Remove`, `N/2` times `Remove`, `N` times `Contains`. -/
theorem main_counts_match_bench {T F : Type} (tr : TreeOps T) (fl : FloatOps F)
    (clock : Nat → Int) (N : Nat) (R : Int) (d : List Int) (hlen : d.length = N) :
    (main tr fl clock N R d).lines.map (fun l => (l.2.1, l.2.2)) =
      [((N : Int), "Unique Inserts"), ((N : Int), "Repeated Inserts"),
       (((N / 2 : Nat) : Int), "Unique Deletes"), (((N / 2 : Nat) : Int), "Repeated Deletes"),
       ((N : Int), "Queries")] ∧
    (main tr fl clock N R d).runs ≠ [] ∧
    ∀ run ∈ (main tr fl clock N R d).runs,
      ((run.calls 0).length = N ∧ ∀ c ∈ run.calls 0, ∃ v, c = Call.insert v) ∧
      ((run.calls 1).length = N ∧ ∀ c ∈ run.calls 1, ∃ v, c = Call.insert v) ∧
      ((run.calls 2).length = N / 2 ∧ ∀ c ∈ run.calls 2, ∃ v, c = Call.remove v) ∧
      ((run.calls 3).length = N / 2 ∧ ∀ c ∈ run.calls 3, ∃ v, c = Call.remove v) ∧
      ((run.calls 4).length = N ∧ ∀ c ∈ run.calls 4, ∃ v, c = Call.contains v) ∧
      ∀ k : Fin 5, ∃ line, (main tr fl clock N R d).lines[k.val]? = some line ∧
        line.2.1 = ((run.calls k).length : Int) ∧ line.2.2 = names k := by
  obtain ⟨l0, l1, l2, l3, l4⟩ := benchCalls_length d
  obtain ⟨k0, k1, k2, k3, k4⟩ := benchCalls_kind d
  rw [hlen] at l0 l1 l2 l3 l4
  refine ⟨rfl, ?_, ?_⟩
  · rw [main_runs_cons]
    exact List.cons_ne_nil _ _
  · intro run hrun
    obtain ⟨_, _, hc, _⟩ := main_runs_mem tr fl clock d N R run hrun
    rw [hc]
    refine ⟨⟨l0, k0⟩, ⟨l1, k1⟩, ⟨l2, k2⟩, ⟨l3, k3⟩, ⟨l4, k4⟩, ?_⟩
    intro k
    fin_cases k
    · exact ⟨_, rfl, by
        show (N : Int) = ((benchCalls d 0).length : Int)
        rw [l0], rfl⟩
    · exact ⟨_, rfl, by
        show (N : Int) = ((benchCalls d 1).length : Int)
        rw [l1], rfl⟩
    · exact ⟨_, rfl, by
        show Int.tdiv (N : Int) 2 = ((benchCalls d 2).length : Int)
        rw [l2]; rfl, rfl⟩
    · exact ⟨_, rfl, by
        show Int.tdiv (N : Int) 2 = ((benchCalls d 3).length : Int)
        rw [l3]; rfl, rfl⟩
    · exact ⟨_, rfl, by
        show (N : Int) = ((benchCalls d 4).length : Int)
        rw [l4], rfl⟩

/-- C6 at `N = 5`, three runs and the permutation 2, 0, 4, 3, 1. -/
theorem main_counts_match_bench_witness :
    (main refTree ratOps sampleClock 5 3 [2, 0, 4, 3, 1]).lines.map (fun l => (l.2.1, l.2.2)) =
      [(5, "Unique Inserts"), (5, "Repeated Inserts"), (2, "Unique Deletes"),
       (2, "Repeated Deletes"), (5, "Queries")] :=
  (main_counts_match_bench refTree ratOps sampleClock 5 3 [2, 0, 4, 3, 1] rfl).1

/-- C8, as stated, fails: with the runs option at 0, `main` runs `Bench` once,
not 0 times. -/
theorem main_runs_once_at_zero :
    ((main refTree ratOps sampleClock 4 0 [2, 0, 3, 1]).runs.length : Int) = 1 ∧
    ((main refTree ratOps sampleClock 4 0 [2, 0, 3, 1]).runs.length : Int) ≠ 0 :=
  ⟨by decide, by decide⟩

/-- C8, amended: for every value `R >= 1` of the runs option, `main` runs
`Bench` exactly `R` times, each time on the same `d` and on a tree `NewTree`
has just made, and the figure on the line of each phase is that phase's time
of the first run, with the times of the later runs added in order, divided
by `float(R)`. -/
theorem main_runs_and_average {T F : Type} (tr : TreeOps T) (fl : FloatOps F)
    (clock : Nat → Int) (N R : Int) (d : List Int) (hR : 1 ≤ R) :
    ((main tr fl clock N R d).runs.length : Int) = R ∧
    (main tr fl clock N R d).runs =
      (List.range R.toNat).map (fun m => (Bench tr fl clock (10 * m) d).1) ∧
    (∀ run ∈ (main tr fl clock N R d).runs,
      run.input = d ∧ run.start = tr.NewTree intLess) ∧
    ∃ first later, (main tr fl clock N R d).runs = first :: later ∧
      ∀ k : Fin 5, ∃ line, (main tr fl clock N R d).lines[k.val]? = some line ∧
        line.1 = fl.div (later.foldl (fun acc r => fl.add acc (r.times k)) (first.times k))
          (fl.ofInt R) := by
  have hn : 1 + (R - 1).toNat = R.toNat := by omega
  refine ⟨?_, ?_, ?_, ?_⟩
  · rw [main_runs_length, hn]
    omega
  · rw [main_runs, hn]
  · intro run hrun
    obtain ⟨h1, h2, _, _⟩ := main_runs_mem tr fl clock d N R run hrun
    exact ⟨h1, h2⟩
  · refine ⟨_, _, main_runs_cons tr fl clock d N R, ?_⟩
    intro k
    rw [main_lines]
    fin_cases k <;> exact ⟨_, rfl, rfl⟩

/-- C8, amended, at three runs. -/
theorem main_runs_and_average_witness :
    ((main refTree ratOps sampleClock 4 3 [2, 0, 3, 1]).runs.length : Int) = 3 :=
  (main_runs_and_average refTree ratOps sampleClock 4 3 [2, 0, 3, 1] (by decide)).1

/-! ## bench.go: the phases of `Bench` against a tree that follows the set contract -/

section Phases

variable {T : Type} {tr : TreeOps T} {mem : T → Int → Prop}

theorem runCalls_map_insert (tr : TreeOps T) (l : List Int) (t : T) :
    runCalls tr (l.map Call.insert) t = insertAll tr l t := by
  unfold runCalls insertAll
  rw [List.foldl_map]
  rfl

theorem runCalls_map_remove (tr : TreeOps T) (l : List Int) (t : T) :
    runCalls tr (l.map Call.remove) t = removeAll tr l t := by
  unfold runCalls removeAll
  rw [List.foldl_map]
  rfl

theorem runCalls_map_contains (tr : TreeOps T) (l : List Int) (t : T) :
    runCalls tr (l.map Call.contains) t = t := by
  unfold runCalls
  rw [List.foldl_map]
  induction l with
  | nil => rfl
  | cons v rest ih => exact ih

theorem map_split {β : Type} (f : Int → β) (l : List Int) (pre post : List β) (c : β)
    (h : l.map f = pre ++ c :: post) :
    ∃ pre' v post', l = pre' ++ v :: post' ∧ pre = pre'.map f ∧ c = f v := by
  obtain ⟨l1, l2, rfl, h1, h2⟩ := List.map_eq_append_iff.1 h
  obtain ⟨v, l3, rfl, h3, _⟩ := List.map_eq_cons_iff.1 h2
  exact ⟨l1, v, l3, rfl, h1.symm, h3.symm⟩

theorem insertAll_len_new (hs : SetModel tr mem) (hl : LenContract tr mem) :
    ∀ (l : List Int) (t : T), Reachable tr t → l.Nodup → (∀ v ∈ l, ¬ mem t v) →
      tr.Len (insertAll tr l t) = tr.Len t + l.length := by
  intro l
  induction l with
  | nil => intro t _ _ _; simp [insertAll]
  | cons v rest ih =>
    intro t ht hnd habs
    rw [List.nodup_cons] at hnd
    have hv : ¬ mem t v := habs v (List.mem_cons_self v rest)
    have hrest : ∀ x ∈ rest, ¬ mem (tr.Insert t v) x := by
      intro x hx hm
      rcases (hs.mem_insert t ht v x).1 hm with h | h
      · exact hnd.1 (h ▸ hx)
      · exact habs x (List.mem_cons_of_mem v hx) h
    have := ih (tr.Insert t v) (Reachable.insert v ht) hnd.2 hrest
    unfold insertAll at this ⊢
    rw [List.foldl_cons, this, hl.len_insert_absent t ht v hv]
    simp only [List.length_cons]; push_cast; ring

theorem insertAll_len_old (hs : SetModel tr mem) (hl : LenContract tr mem) :
    ∀ (l : List Int) (t : T), Reachable tr t → (∀ v ∈ l, mem t v) →
      tr.Len (insertAll tr l t) = tr.Len t := by
  intro l
  induction l with
  | nil => intro t _ _; rfl
  | cons v rest ih =>
    intro t ht hpres
    have hv : mem t v := hpres v (List.mem_cons_self v rest)
    have hrest : ∀ x ∈ rest, mem (tr.Insert t v) x := fun x hx =>
      (hs.mem_insert t ht v x).2 (Or.inr (hpres x (List.mem_cons_of_mem v hx)))
    have := ih (tr.Insert t v) (Reachable.insert v ht) hrest
    unfold insertAll at this ⊢
    rw [List.foldl_cons, this, hl.len_insert_present t ht v hv]

theorem removeAll_len_present (hs : SetModel tr mem) (hl : LenContract tr mem) :
    ∀ (l : List Int) (t : T), Reachable tr t → l.Nodup → (∀ v ∈ l, mem t v) →
      tr.Len (removeAll tr l t) = tr.Len t - l.length := by
  intro l
  induction l with
  | nil => intro t _ _ _; simp [removeAll]
  | cons v rest ih =>
    intro t ht hnd hpres
    rw [List.nodup_cons] at hnd
    have hv : mem t v := hpres v (List.mem_cons_self v rest)
    have hrest : ∀ x ∈ rest, mem (tr.Remove t v) x := by
      intro x hx
      refine (hs.mem_remove t ht v x).2 ⟨?_, hpres x (List.mem_cons_of_mem v hx)⟩
      intro h
      exact hnd.1 (h ▸ hx)
    have := ih (tr.Remove t v) (Reachable.remove v ht) hnd.2 hrest
    unfold removeAll at this ⊢
    rw [List.foldl_cons, this, hl.len_remove_present t ht v hv]
    simp only [List.length_cons]; push_cast; ring

theorem removeAll_len_absent (hs : SetModel tr mem) (hl : LenContract tr mem) :
    ∀ (l : List Int) (t : T), Reachable tr t → (∀ v ∈ l, ¬ mem t v) →
      tr.Len (removeAll tr l t) = tr.Len t := by
  intro l
  induction l with
  | nil => intro t _ _; rfl
  | cons v rest ih =>
    intro t ht habs
    have hv : ¬ mem t v := habs v (List.mem_cons_self v rest)
    have hrest : ∀ x ∈ rest, ¬ mem (tr.Remove t v) x := fun x hx hm =>
      habs x (List.mem_cons_of_mem v hx) ((hs.mem_remove t ht v x).1 hm).2
    have := ih (tr.Remove t v) (Reachable.remove v ht) hrest
    unfold removeAll at this ⊢
    rw [List.foldl_cons, this, hl.len_remove_absent t ht v hv]

/-- A loop of `Insert` calls over distinct absent values: each call finds its
value absent and adds 1 to `Len`. -/
theorem insert_phase_new (hs : SetModel tr mem) (hl : LenContract tr mem) (l : List Int)
    (t : T) (ht : Reachable tr t) (hnd : l.Nodup) (habs : ∀ v ∈ l, ¬ mem t v)
    (pre post : List Call) (c : Call) (h : l.map Call.insert = pre ++ c :: post) :
    ∃ v, c = Call.insert v ∧ ¬ mem (runCalls tr pre t) v ∧
      tr.Len (applyCall tr (runCalls tr pre t) c) = tr.Len (runCalls tr pre t) + 1 := by
  obtain ⟨pre', v, post', rfl, rfl, rfl⟩ := map_split _ _ _ _ _ h
  obtain ⟨_, hv, _, hvl⟩ := nodup_split hnd rfl
  rw [runCalls_map_insert]
  obtain ⟨r1, m1⟩ := insertAll_spec hs pre' t ht
  have hnot : ¬ mem (insertAll tr pre' t) v := by
    rw [m1 v]
    rintro (h | h)
    · exact hv h
    · exact habs v hvl h
  exact ⟨v, rfl, hnot, hl.len_insert_absent _ r1 v hnot⟩

/-- A loop of `Insert` calls over values already present: each call is a
no-op on the contents and on `Len`. -/
theorem insert_phase_old (hs : SetModel tr mem) (hl : LenContract tr mem) (l : List Int)
    (t : T) (ht : Reachable tr t) (hpres : ∀ v ∈ l, mem t v)
    (pre post : List Call) (c : Call) (h : l.map Call.insert = pre ++ c :: post) :
    ∃ v, c = Call.insert v ∧ mem (runCalls tr pre t) v ∧
      tr.Len (applyCall tr (runCalls tr pre t) c) = tr.Len (runCalls tr pre t) ∧
      ∀ w, mem (applyCall tr (runCalls tr pre t) c) w ↔ mem (runCalls tr pre t) w := by
  obtain ⟨pre', v, post', rfl, rfl, rfl⟩ := map_split _ _ _ _ _ h
  rw [runCalls_map_insert]
  obtain ⟨r1, m1⟩ := insertAll_spec hs pre' t ht
  have hin : mem (insertAll tr pre' t) v :=
    (m1 v).2 (Or.inr (hpres v (List.mem_append_right _ (List.mem_cons_self v post'))))
  refine ⟨v, rfl, hin, hl.len_insert_present _ r1 v hin, ?_⟩
  intro w
  show mem (tr.Insert _ v) w ↔ _
  rw [hs.mem_insert _ r1]
  constructor
  · rintro (h | h)
    · exact h ▸ hin
    · exact h
  · exact Or.inr

/-- A loop of `Remove` calls over distinct present values: each call finds its
value present and subtracts 1 from `Len`. -/
theorem remove_phase_present (hs : SetModel tr mem) (hl : LenContract tr mem) (l : List Int)
    (t : T) (ht : Reachable tr t) (hnd : l.Nodup) (hpres : ∀ v ∈ l, mem t v)
    (pre post : List Call) (c : Call) (h : l.map Call.remove = pre ++ c :: post) :
    ∃ v, c = Call.remove v ∧ mem (runCalls tr pre t) v ∧
      tr.Len (applyCall tr (runCalls tr pre t) c) = tr.Len (runCalls tr pre t) - 1 := by
  obtain ⟨pre', v, post', rfl, rfl, rfl⟩ := map_split _ _ _ _ _ h
  obtain ⟨_, hv, _, hvl⟩ := nodup_split hnd rfl
  rw [runCalls_map_remove]
  obtain ⟨r1, m1⟩ := removeAll_spec hs pre' t ht
  have hin : mem (removeAll tr pre' t) v := (m1 v).2 ⟨hv, hpres v hvl⟩
  exact ⟨v, rfl, hin, hl.len_remove_present _ r1 v hin⟩

/-- A loop of `Remove` calls over absent values: each call is a no-op on the
contents and on `Len`. -/
theorem remove_phase_absent (hs : SetModel tr mem) (hl : LenContract tr mem) (l : List Int)
    (t : T) (ht : Reachable tr t) (habs : ∀ v ∈ l, ¬ mem t v)
    (pre post : List Call) (c : Call) (h : l.map Call.remove = pre ++ c :: post) :
    ∃ v, c = Call.remove v ∧ ¬ mem (runCalls tr pre t) v ∧
      tr.Len (applyCall tr (runCalls tr pre t) c) = tr.Len (runCalls tr pre t) ∧
      ∀ w, mem (applyCall tr (runCalls tr pre t) c) w ↔ mem (runCalls tr pre t) w := by
  obtain ⟨pre', v, post', rfl, rfl, rfl⟩ := map_split _ _ _ _ _ h
  rw [runCalls_map_remove]
  obtain ⟨r1, m1⟩ := removeAll_spec hs pre' t ht
  have hnot : ¬ mem (removeAll tr pre' t) v := fun hm =>
    habs v (List.mem_append_right _ (List.mem_cons_self v post')) ((m1 v).1 hm).2
  refine ⟨v, rfl, hnot, hl.len_remove_absent _ r1 v hnot, ?_⟩
  intro w
  show mem (tr.Remove _ v) w ↔ _
  rw [hs.mem_remove _ r1]
  constructor
  · exact fun h => h.2
  · exact fun h => ⟨fun e => hnot (e ▸ h), h⟩

end Phases

/-- C7: for pairwise distinct `d` and a tree that follows the set contract the
phases of `Bench(d)` are what their labels say.  Every `Insert` of phase 1
finds its value absent and adds 1 to `Len`, which is `len(d)` after the
phase; every `Insert` of phase 2 leaves contents and `Len` as they are; the
`Remove` calls of phase 3 are for `d[0..len(d)/2-1]`, each finds its value
present and subtracts 1, and `Len` is `len(d) - len(d)/2` after the phase;
every `Remove` of phase 4 leaves contents and `Len` as they are; the tree
then holds exactly the elements `d[len(d)/2..]`, and the queries of phase 5
do not change it. -/
theorem bench_phases_as_labelled {T : Type} (tr : TreeOps T) (mem : T → Int → Prop)
    (hs : SetModel tr mem) (hl : LenContract tr mem) (d : List Int) (hd : d.Nodup) :
    (∀ pre c post, benchCalls d 0 = pre ++ c :: post →
      ∃ v, c = Call.insert v ∧ ¬ mem (runCalls tr pre (tr.NewTree intLess)) v ∧
        tr.Len (applyCall tr (runCalls tr pre (tr.NewTree intLess)) c) =
          tr.Len (runCalls tr pre (tr.NewTree intLess)) + 1) ∧
    tr.Len (benchTrees tr d (tr.NewTree intLess) 0) = (d.length : Int) ∧
    (∀ pre c post, benchCalls d 1 = pre ++ c :: post →
      ∃ v, c = Call.insert v ∧
        mem (runCalls tr pre (benchTrees tr d (tr.NewTree intLess) 0)) v ∧
        tr.Len (applyCall tr (runCalls tr pre (benchTrees tr d (tr.NewTree intLess) 0)) c) =
          tr.Len (runCalls tr pre (benchTrees tr d (tr.NewTree intLess) 0)) ∧
        ∀ w, mem (applyCall tr (runCalls tr pre (benchTrees tr d (tr.NewTree intLess) 0)) c) w ↔
          mem (runCalls tr pre (benchTrees tr d (tr.NewTree intLess) 0)) w) ∧
    tr.Len (benchTrees tr d (tr.NewTree intLess) 1) = (d.length : Int) ∧
    (benchCalls d 2).map Call.arg = d.take (d.length / 2) ∧
    (∀ pre c post, benchCalls d 2 = pre ++ c :: post →
      ∃ v, c = Call.remove v ∧
        mem (runCalls tr pre (benchTrees tr d (tr.NewTree intLess) 1)) v ∧
        tr.Len (applyCall tr (runCalls tr pre (benchTrees tr d (tr.NewTree intLess) 1)) c) =
          tr.Len (runCalls tr pre (benchTrees tr d (tr.NewTree intLess) 1)) - 1) ∧
    tr.Len (benchTrees tr d (tr.NewTree intLess) 2) =
      (d.length : Int) - ((d.length / 2 : Nat) : Int) ∧
    (∀ pre c post, benchCalls d 3 = pre ++ c :: post →
      ∃ v, c = Call.remove v ∧
        ¬ mem (runCalls tr pre (benchTrees tr d (tr.NewTree intLess) 2)) v ∧
        tr.Len (applyCall tr (runCalls tr pre (benchTrees tr d (tr.NewTree intLess) 2)) c) =
          tr.Len (runCalls tr pre (benchTrees tr d (tr.NewTree intLess) 2)) ∧
        ∀ w, mem (applyCall tr (runCalls tr pre (benchTrees tr d (tr.NewTree intLess) 2)) c) w ↔
          mem (runCalls tr pre (benchTrees tr d (tr.NewTree intLess) 2)) w) ∧
    tr.Len (benchTrees tr d (tr.NewTree intLess) 3) =
      (d.length : Int) - ((d.length / 2 : Nat) : Int) ∧
    (∀ w, mem (benchTrees tr d (tr.NewTree intLess) 3) w ↔ w ∈ d.drop (d.length / 2)) ∧
    benchTrees tr d (tr.NewTree intLess) 4 = benchTrees tr d (tr.NewTree intLess) 3 := by
  -- the tree after each phase
  have e0 : benchTrees tr d (tr.NewTree intLess) 0 = insertAll tr d (tr.NewTree intLess) :=
    runCalls_map_insert tr d _
  have e1 : benchTrees tr d (tr.NewTree intLess) 1 =
      insertAll tr d (benchTrees tr d (tr.NewTree intLess) 0) :=
    runCalls_map_insert tr d _
  have e2 : benchTrees tr d (tr.NewTree intLess) 2 =
      removeAll tr (d.take (d.length / 2)) (benchTrees tr d (tr.NewTree intLess) 1) := by
    show runCalls tr (benchCalls d 2) (benchTrees tr d (tr.NewTree intLess) 1) = _
    rw [(benchCalls_remove d).1, runCalls_map_remove]
  have e3 : benchTrees tr d (tr.NewTree intLess) 3 =
      removeAll tr (d.take (d.length / 2)) (benchTrees tr d (tr.NewTree intLess) 2) := by
    show runCalls tr (benchCalls d 3) (benchTrees tr d (tr.NewTree intLess) 2) = _
    rw [(benchCalls_remove d).2, runCalls_map_remove]
  have e4 : benchTrees tr d (tr.NewTree intLess) 4 = benchTrees tr d (tr.NewTree intLess) 3 := by
    show runCalls tr (benchCalls d 4) (benchTrees tr d (tr.NewTree intLess) 3) = _
    show runCalls tr ((List.range d.length).map (fun i : Nat => Call.contains (i : Int))) _ = _
    have : (List.range d.length).map (fun i : Nat => Call.contains (i : Int)) =
        ((List.range d.length).map (fun i : Nat => (i : Int))).map Call.contains := by
      rw [List.map_map]; rfl
    rw [this, runCalls_map_contains]
  -- reachability, contents and `Len` after each phase
  have hnew : ∀ v ∈ d, ¬ mem (tr.NewTree intLess) v := fun v _ => hs.mem_new v
  obtain ⟨r0, m0⟩ := insertAll_spec hs d (tr.NewTree intLess) Reachable.new
  rw [← e0] at r0 m0
  have m0' : ∀ w, mem (benchTrees tr d (tr.NewTree intLess) 0) w ↔ w ∈ d := by
    intro w; rw [m0 w]; simp [hs.mem_new w]
  have l0 : tr.Len (benchTrees tr d (tr.NewTree intLess) 0) = (d.length : Int) := by
    rw [e0, insertAll_len_new hs hl d _ Reachable.new hd hnew, hl.len_new, zero_add]
  have p0 : ∀ v ∈ d, mem (benchTrees tr d (tr.NewTree intLess) 0) v := fun v hv => (m0' v).2 hv
  obtain ⟨r1, m1⟩ := insertAll_spec hs d _ r0
  rw [← e1] at r1 m1
  have m1' : ∀ w, mem (benchTrees tr d (tr.NewTree intLess) 1) w ↔ w ∈ d := by
    intro w; rw [m1 w, m0' w]; tauto
  have l1 : tr.Len (benchTrees tr d (tr.NewTree intLess) 1) = (d.length : Int) := by
    rw [e1, insertAll_len_old hs hl d _ r0 p0, l0]
  have hnd : (d.take (d.length / 2)).Nodup := hd.sublist (List.take_sublist _ _)
  have hsub : ∀ v ∈ d.take (d.length / 2), v ∈ d := fun v hv => List.mem_of_mem_take hv
  have p1 : ∀ v ∈ d.take (d.length / 2), mem (benchTrees tr d (tr.NewTree intLess) 1) v :=
    fun v hv => (m1' v).2 (hsub v hv)
  obtain ⟨r2, m2⟩ := removeAll_spec hs (d.take (d.length / 2)) _ r1
  rw [← e2] at r2 m2
  have hlen : (d.take (d.length / 2)).length = d.length / 2 := by
    rw [List.length_take]; omega
  have l2 : tr.Len (benchTrees tr d (tr.NewTree intLess) 2) =
      (d.length : Int) - ((d.length / 2 : Nat) : Int) := by
    rw [e2, removeAll_len_present hs hl _ _ r1 hnd p1, l1, hlen]
  have a2 : ∀ v ∈ d.take (d.length / 2), ¬ mem (benchTrees tr d (tr.NewTree intLess) 2) v :=
    fun v hv hm => ((m2 v).1 hm).1 hv
  obtain ⟨_, m3⟩ := removeAll_spec hs (d.take (d.length / 2)) _ r2
  rw [← e3] at m3
  have l3 : tr.Len (benchTrees tr d (tr.NewTree intLess) 3) =
      (d.length : Int) - ((d.length / 2 : Nat) : Int) := by
    rw [e3, removeAll_len_absent hs hl _ _ r2 a2, l2]
  refine ⟨?_, l0, ?_, l1, ?_, ?_, l2, ?_, l3, ?_, e4⟩
  · intro pre c post h
    exact insert_phase_new hs hl d _ Reachable.new hd hnew pre post c h
  · intro pre c post h
    exact insert_phase_old hs hl d _ r0 p0 pre post c h
  · rw [(benchCalls_remove d).1, List.map_map]
    have : (Call.arg ∘ Call.remove) = id := rfl
    rw [this, List.map_id]
  · intro pre c post h
    rw [(benchCalls_remove d).1] at h
    exact remove_phase_present hs hl _ _ r1 hnd p1 pre post c h
  · intro pre c post h
    rw [(benchCalls_remove d).2] at h
    exact remove_phase_absent hs hl _ _ r2 a2 pre post c h
  · intro w
    rw [m3 w, m2 w, m1' w]
    have hsplit : d = d.take (d.length / 2) ++ d.drop (d.length / 2) :=
      (List.take_append_drop _ d).symm
    have hdis := (List.nodup_append.1 (hsplit ▸ hd)).2.2
    constructor
    · rintro ⟨h1, _, h2⟩
      rw [hsplit, List.mem_append] at h2
      rcases h2 with h | h
      · exact absurd h h1
      · exact h
    · intro h
      have hnot : w ∉ d.take (d.length / 2) := fun h' => hdis h' h
      exact ⟨hnot, hnot, List.mem_of_mem_drop h⟩

/-- C7 at the reference container and the values 20, 10, 30, 15, 7: after the
four phases the tree holds the values 30, 15, 7. -/
theorem bench_phases_as_labelled_witness :
    ([20, 10, 30, 15, 7] : List Int).Nodup ∧
    refTree.Len (benchTrees refTree [20, 10, 30, 15, 7] (refTree.NewTree intLess) 3) = 3 ∧
    ∀ w, refMem (benchTrees refTree [20, 10, 30, 15, 7] (refTree.NewTree intLess) 3) w ↔
      w ∈ ([30, 15, 7] : List Int) :=
  have h := bench_phases_as_labelled refTree refMem refTree_setModel refTree_lenContract
    [20, 10, 30, 15, 7] (by decide)
  ⟨by decide, h.2.2.2.2.2.2.2.2.1, h.2.2.2.2.2.2.2.2.2.1⟩

end GoBTree
